import Mathlib

/-!
Verification development for the gufe tokenization engine and its storage
and protocol collaborators.

The tokenization core (`gufe/base.py`) is not part of the provided source
tree; only its test suite is.  Its definitions below are therefore modelled
from the specification, and each such group of definitions carries a doc
comment noting `Modelled from the spec:`.  The results client
(`gufe/storage/resultsclient.py`) and the protocol unit
(`gufe/protocols/protocolunit.py`) are embedded directly from their source.

The content model (`TVal`) is the process-independent content of a
Tokenizable graph; the heap model (`GObj`, `DecState`) adds object identity
(references into a heap) for the registry and identity-preservation
properties.
-/

namespace Gufe

inductive Prim where
  | pint : Int → Prim
  | pstr : String → Prim
  | pbool : Bool → Prim
  | pnone : Prim
deriving DecidableEq, Repr

structure TypeTag where
  module : String
  qualname : String
deriving DecidableEq, Repr

def lookupA {κ α : Type} [DecidableEq κ] (k : κ) : List (κ × α) → Option α
  | [] => none
  | (k', v) :: rest => if k' = k then some v else lookupA k rest

def eraseA {κ α : Type} [DecidableEq κ] (k : κ) : List (κ × α) → List (κ × α)
  | [] => []
  | (k', v) :: rest => if k' = k then rest else (k', v) :: eraseA k rest

def nodupKeys {κ α : Type} [DecidableEq κ] : List (κ × α) → Bool
  | [] => true
  | (k, _) :: rest => (lookupA k rest).isNone && nodupKeys rest

inductive TVal where
  | prim : Prim → TVal
  | tok : TypeTag → List (String × TVal) → TVal
  | seq : List TVal → TVal
  | map : List (String × TVal) → TVal

inductive Plain where
  | prim : Prim → Plain
  | tagged : TypeTag → List (String × Plain) → Plain
  | seq : List Plain → Plain
  | map : List (String × Plain) → Plain
  | keyref : String → Plain

mutual
def contentEqV : TVal → TVal → Bool
  | .prim p, .prim q => p == q
  | .tok t1 f1, .tok t2 f2 => t1 == t2 && contentEqM f1 f2
  | .seq xs, .seq ys => contentEqL xs ys
  | .map m1, .map m2 => contentEqM m1 m2
  | _, _ => false

def contentEqL : List TVal → List TVal → Bool
  | [], [] => true
  | x :: xs, y :: ys => contentEqV x y && contentEqL xs ys
  | _, _ => false

def contentEqM : List (String × TVal) → List (String × TVal) → Bool
  | [], m2 => m2.isEmpty
  | (k, v) :: rest, m2 =>
    match lookupA k m2 with
    | some w => contentEqV v w && contentEqM rest (eraseA k m2)
    | none => false
end

mutual
def wfV : TVal → Bool
  | .prim _ => true
  | .tok _ fs => nodupKeys fs && wfM fs
  | .seq xs => wfL xs
  | .map m => nodupKeys m && wfM m

def wfL : List TVal → Bool
  | [] => true
  | x :: xs => wfV x && wfL xs

def wfM : List (String × TVal) → Bool
  | [] => true
  | (_, v) :: rest => wfV v && wfM rest
end

/-- Byte-level lexicographic comparison of key strings (kernel-evaluable). -/
def chLe : List Char → List Char → Bool
  | [], _ => true
  | _ :: _, [] => false
  | a :: as, b :: bs =>
    Nat.blt a.toNat b.toNat || (Nat.beq a.toNat b.toNat && chLe as bs)

def keyLE {α : Type} (a b : String × α) : Prop := chLe a.1.data b.1.data = true

instance {α : Type} : DecidableRel (@keyLE α) :=
  fun _ _ => inferInstanceAs (Decidable (_ = true))

def sortFields (l : List (String × Plain)) : List (String × Plain) :=
  l.insertionSort keyLE

mutual
def canonV : TVal → Plain
  | .prim p => .prim p
  | .tok t fs => .tagged t (sortFields (canonM fs))
  | .seq xs => .seq (canonL xs)
  | .map m => .map (sortFields (canonM m))

def canonL : List TVal → List Plain
  | [] => []
  | x :: xs => canonV x :: canonL xs

def canonM : List (String × TVal) → List (String × Plain)
  | [] => []
  | (k, v) :: rest => (k, canonV v) :: canonM rest
end

def serPrim : Prim → String
  | .pint n => "i:" ++ toString n
  | .pstr s => "s:" ++ s
  | .pbool b => "b:" ++ toString b
  | .pnone => "n"

mutual
def serP : Plain → String
  | .prim p => "P(" ++ serPrim p ++ ")"
  | .tagged t fs => "T(" ++ t.module ++ "," ++ t.qualname ++ ")(" ++ serM fs ++ ")"
  | .seq xs => "L(" ++ serL xs ++ ")"
  | .map m => "M(" ++ serM m ++ ")"
  | .keyref k => "K(" ++ k ++ ")"

def serL : List Plain → String
  | [] => ""
  | x :: xs => serP x ++ ";" ++ serL xs

def serM : List (String × Plain) → String
  | [] => ""
  | (k, v) :: rest => k ++ "=" ++ serP v ++ ";" ++ serM rest
end

def deriveKeyTok (t : TypeTag) (fs : List (String × TVal)) : String :=
  t.qualname ++ "-" ++ serP (canonV (.tok t fs))

def toFields : TVal → Option (List (String × TVal))
  | .tok _ fs => some fs
  | _ => none

def fromFields (t : TypeTag) (fs : List (String × TVal)) : TVal := .tok t fs

mutual
def toDeepV : TVal → Plain
  | .prim p => .prim p
  | .tok t fs => .tagged t (toDeepM fs)
  | .seq xs => .seq (toDeepL xs)
  | .map m => .map (toDeepM m)

def toDeepL : List TVal → List Plain
  | [] => []
  | x :: xs => toDeepV x :: toDeepL xs

def toDeepM : List (String × TVal) → List (String × Plain)
  | [] => []
  | (k, v) :: rest => (k, toDeepV v) :: toDeepM rest
end

mutual
def fromDeepV (reg : List TypeTag) : Plain → Option TVal
  | .prim p => some (.prim p)
  | .tagged t fs =>
    if t ∈ reg then (fromDeepM reg fs).map (.tok t) else none
  | .seq xs => (fromDeepL reg xs).map .seq
  | .map m => (fromDeepM reg m).map .map
  | .keyref _ => none

def fromDeepL (reg : List TypeTag) : List Plain → Option (List TVal)
  | [] => some []
  | x :: xs =>
    match fromDeepV reg x, fromDeepL reg xs with
    | some v, some vs => some (v :: vs)
    | _, _ => none

def fromDeepM (reg : List TypeTag) : List (String × Plain) → Option (List (String × TVal))
  | [] => some []
  | (k, v) :: rest =>
    match fromDeepV reg v, fromDeepM reg rest with
    | some w, some ws => some ((k, w) :: ws)
    | _, _ => none
end

mutual
def tagsKnownV (reg : List TypeTag) : TVal → Bool
  | .prim _ => true
  | .tok t fs => decide (t ∈ reg) && tagsKnownM reg fs
  | .seq xs => tagsKnownL reg xs
  | .map m => tagsKnownM reg m

def tagsKnownL (reg : List TypeTag) : List TVal → Bool
  | [] => true
  | x :: xs => tagsKnownV reg x && tagsKnownL reg xs

def tagsKnownM (reg : List TypeTag) : List (String × TVal) → Bool
  | [] => true
  | (_, v) :: rest => tagsKnownV reg v && tagsKnownM reg rest
end

mutual
def beqV : TVal → TVal → Bool
  | .prim p, .prim q => p == q
  | .tok t1 f1, .tok t2 f2 => t1 == t2 && beqM f1 f2
  | .seq xs, .seq ys => beqL xs ys
  | .map m1, .map m2 => beqM m1 m2
  | _, _ => false

def beqL : List TVal → List TVal → Bool
  | [], [] => true
  | x :: xs, y :: ys => beqV x y && beqL xs ys
  | _, _ => false

def beqM : List (String × TVal) → List (String × TVal) → Bool
  | [], [] => true
  | (k1, v) :: vs, (k2, w) :: ws => k1 == k2 && beqV v w && beqM vs ws
  | _, _ => false
end

mutual
def toKeyedV : TVal → Plain
  | .prim p => .prim p
  | .tok t fs => .keyref (deriveKeyTok t fs)
  | .seq xs => .seq (toKeyedL xs)
  | .map m => .map (toKeyedM m)

def toKeyedL : List TVal → List Plain
  | [] => []
  | x :: xs => toKeyedV x :: toKeyedL xs

def toKeyedM : List (String × TVal) → List (String × Plain)
  | [] => []
  | (k, v) :: rest => (k, toKeyedV v) :: toKeyedM rest
end

def toKeyedTok (t : TypeTag) (fs : List (String × TVal)) : Plain :=
  .tagged t (toKeyedM fs)

mutual
def fromKeyedV (reg : List TypeTag) (res : List (String × TVal)) : Plain → Option TVal
  | .prim p => some (.prim p)
  | .keyref k => lookupA k res
  | .tagged _ _ => none
  | .seq xs => (fromKeyedL reg res xs).map .seq
  | .map m => (fromKeyedM reg res m).map .map

def fromKeyedL (reg : List TypeTag) (res : List (String × TVal)) :
    List Plain → Option (List TVal)
  | [] => some []
  | x :: xs =>
    match fromKeyedV reg res x, fromKeyedL reg res xs with
    | some v, some vs => some (v :: vs)
    | _, _ => none

def fromKeyedM (reg : List TypeTag) (res : List (String × TVal)) :
    List (String × Plain) → Option (List (String × TVal))
  | [] => some []
  | (k, v) :: rest =>
    match fromKeyedV reg res v, fromKeyedM reg res rest with
    | some w, some ws => some ((k, w) :: ws)
    | _, _ => none
end

def fromKeyedTok (reg : List TypeTag) (res : List (String × TVal)) : Plain → Option TVal
  | .tagged t fs => if t ∈ reg then (fromKeyedM reg res fs).map (.tok t) else none
  | _ => none

/-- Heap values: field values of live instances; nested Tokenizables are
references to other live instances. -/
inductive HVal where
  | prim : Prim → HVal
  | ref : Nat → HVal
  | seq : List HVal → HVal
  | map : List (String × HVal) → HVal

/-- A live Tokenizable instance: its type tag and its field values. -/
structure GObj where
  tag : TypeTag
  fields : List (String × HVal)

/-- Decoder state: the heap of live instances, the next fresh reference,
and the dedup registry mapping derived keys to references. -/
structure DecState where
  heap : List (Nat × GObj)
  nextRef : Nat
  registry : List (String × Nat)

/-- Well-formed decoder state: every live reference is below `nextRef`,
so fresh allocations never shadow live instances. -/
def stOk (st : DecState) : Bool :=
  st.heap.all fun ro => decide (ro.1 < st.nextRef)

mutual
def contentOfV (h : List (Nat × GObj)) : Nat → HVal → Option TVal
  | 0, _ => none
  | _ + 1, .prim p => some (.prim p)
  | fuel + 1, .ref r =>
    match lookupA r h with
    | some o => (contentOfM h fuel o.fields).map fun fs => .tok o.tag fs
    | none => none
  | fuel + 1, .seq xs => (contentOfL h fuel xs).map .seq
  | fuel + 1, .map m => (contentOfM h fuel m).map .map

def contentOfL (h : List (Nat × GObj)) : Nat → List HVal → Option (List TVal)
  | 0, _ => none
  | _ + 1, [] => some []
  | fuel + 1, x :: xs =>
    match contentOfV h fuel x, contentOfL h fuel xs with
    | some v, some vs => some (v :: vs)
    | _, _ => none

def contentOfM (h : List (Nat × GObj)) :
    Nat → List (String × HVal) → Option (List (String × TVal))
  | 0, _ => none
  | _ + 1, [] => some []
  | fuel + 1, (k, v) :: rest =>
    match contentOfV h fuel v, contentOfM h fuel rest with
    | some w, some ws => some ((k, w) :: ws)
    | _, _ => none
end

mutual
def canonPP : Plain → Plain
  | .prim p => .prim p
  | .tagged t fs => .tagged t (sortFields (canonPM fs))
  | .seq xs => .seq (canonPL xs)
  | .map m => .map (sortFields (canonPM m))
  | .keyref k => .keyref k

def canonPL : List Plain → List Plain
  | [] => []
  | x :: xs => canonPP x :: canonPL xs

def canonPM : List (String × Plain) → List (String × Plain)
  | [] => []
  | (k, v) :: rest => (k, canonPP v) :: canonPM rest
end

/-- The key the decoder derives for a deep-encoded candidate, computed from
the representation itself (its canonical form is hashed together with the
type's qualified name). -/
def deriveKeyPlain (t : TypeTag) (fs : List (String × Plain)) : String :=
  t.qualname ++ "-" ++ serP (canonPP (.tagged t fs))

/-- Allocate a fresh instance and register it under `key` (replacing a dead
registry entry for `key` if one is present). -/
def alloc (st : DecState) (t : TypeTag) (fs' : List (String × HVal))
    (key : String) : Nat × DecState :=
  (st.nextRef,
   { heap := (st.nextRef, ⟨t, fs'⟩) :: st.heap,
     nextRef := st.nextRef + 1,
     registry := (key, st.nextRef) :: eraseA key st.registry })

/-- The dedup check after reconstruction (spec §4.4/§4.5): if an instance
with the candidate's derived key is already live in the registry, return it
and discard the candidate; otherwise allocate and register the candidate. -/
def registerCandidate (st : DecState) (t : TypeTag) (fs' : List (String × HVal))
    (key : String) : Nat × DecState :=
  match lookupA key st.registry with
  | some y => if (lookupA y st.heap).isSome then (y, st) else alloc st t fs' key
  | none => alloc st t fs' key

mutual
def decDeepV (reg : List TypeTag) : DecState → Plain → Option (HVal × DecState)
  | st, .prim p => some (.prim p, st)
  | st, .tagged t fs =>
    if t ∈ reg then
      match decDeepM reg st fs with
      | some (fs', st') =>
        let rs := registerCandidate st' t fs' (deriveKeyPlain t fs)
        some (.ref rs.1, rs.2)
      | none => none
    else none
  | st, .seq xs => (decDeepL reg st xs).map fun rs => (.seq rs.1, rs.2)
  | st, .map m => (decDeepM reg st m).map fun rs => (.map rs.1, rs.2)
  | _, .keyref _ => none

def decDeepL (reg : List TypeTag) : DecState → List Plain → Option (List HVal × DecState)
  | st, [] => some ([], st)
  | st, x :: xs =>
    match decDeepV reg st x with
    | some (v, st1) =>
      match decDeepL reg st1 xs with
      | some (vs, st2) => some (v :: vs, st2)
      | none => none
    | none => none

def decDeepM (reg : List TypeTag) :
    DecState → List (String × Plain) → Option (List (String × HVal) × DecState)
  | st, [] => some ([], st)
  | st, (k, v) :: rest =>
    match decDeepV reg st v with
    | some (w, st1) =>
      match decDeepM reg st1 rest with
      | some (ws, st2) => some ((k, w) :: ws, st2)
      | none => none
    | none => none
end

mutual
def decKeyedV : DecState → Plain → Option (HVal × DecState)
  | st, .prim p => some (.prim p, st)
  | st, .keyref k =>
    match lookupA k st.registry with
    | some r => if (lookupA r st.heap).isSome then some (.ref r, st) else none
    | none => none
  | _, .tagged _ _ => none
  | st, .seq xs => (decKeyedL st xs).map fun rs => (.seq rs.1, rs.2)
  | st, .map m => (decKeyedM st m).map fun rs => (.map rs.1, rs.2)

def decKeyedL : DecState → List Plain → Option (List HVal × DecState)
  | st, [] => some ([], st)
  | st, x :: xs =>
    match decKeyedV st x with
    | some (v, st1) =>
      match decKeyedL st1 xs with
      | some (vs, st2) => some (v :: vs, st2)
      | none => none
    | none => none

def decKeyedM : DecState → List (String × Plain) → Option (List (String × HVal) × DecState)
  | st, [] => some ([], st)
  | st, (k, v) :: rest =>
    match decKeyedV st v with
    | some (w, st1) =>
      match decKeyedM st1 rest with
      | some (ws, st2) => some ((k, w) :: ws, st2)
      | none => none
    | none => none
end

/-- Top level of the keyed decoder: decode the marker-bearing fields, derive
the candidate's key from its reconstructed content, then run the dedup
check. -/
def decKeyedTok (reg : List TypeTag) (fuel : Nat) (st : DecState) (t : TypeTag)
    (fs : List (String × Plain)) : Option (Nat × DecState) :=
  if t ∈ reg then
    match decKeyedM st fs with
    | some (fs', st') =>
      match contentOfM st'.heap fuel fs' with
      | some cfs => some (registerCandidate st' t fs' (deriveKeyTok t cfs))
      | none => none
    | none => none
  else none

/-- Shallow encoding of a live instance: its tag and its field values, with
nested instances left as live references. -/
def toShallowH (st : DecState) (r : Nat) : Option (TypeTag × List (String × HVal)) :=
  match lookupA r st.heap with
  | some o => some (o.tag, o.fields)
  | none => none

/-- Shallow decoding: rebuild the top-level instance from its tag and live
field values, then register it (dedup as for the other modes); nested
fields need no registry lookups. -/
def fromShallowH (reg : List TypeTag) (fuel : Nat) (st : DecState) (t : TypeTag)
    (fs : List (String × HVal)) : Option (Nat × DecState) :=
  if t ∈ reg then
    match contentOfM st.heap fuel fs with
    | some cfs => some (registerCandidate st t fs (deriveKeyTok t cfs))
    | none => none
  else none

mutual
def heapResV (st : DecState) (fuel : Nat) : TVal → Bool
  | .prim _ => true
  | .tok t fs =>
    match lookupA (deriveKeyTok t fs) st.registry with
    | some r =>
      match contentOfV st.heap fuel (.ref r) with
      | some c => beqV c (.tok t fs)
      | none => false
    | none => false
  | .seq xs => heapResL st fuel xs
  | .map m => heapResM st fuel m

def heapResL (st : DecState) (fuel : Nat) : List TVal → Bool
  | [] => true
  | x :: xs => heapResV st fuel x && heapResL st fuel xs

def heapResM (st : DecState) (fuel : Nat) : List (String × TVal) → Bool
  | [] => true
  | (_, v) :: rest => heapResV st fuel v && heapResM st fuel rest
end

mutual
def resolvableV (res : List (String × TVal)) : TVal → Bool
  | .prim _ => true
  | .tok t fs =>
    match lookupA (deriveKeyTok t fs) res with
    | some w => beqV w (.tok t fs)
    | none => false
  | .seq xs => resolvableL res xs
  | .map m => resolvableM res m

def resolvableL (res : List (String × TVal)) : List TVal → Bool
  | [] => true
  | x :: xs => resolvableV res x && resolvableL res xs

def resolvableM (res : List (String × TVal)) : List (String × TVal) → Bool
  | [] => true
  | (_, v) :: rest => resolvableV res v && resolvableM res rest
end

/-- Strict version of the key order, used for uniqueness of sorted forms. -/
def keyLT {α : Type} (a b : String × α) : Prop := keyLE a b ∧ a.1 ≠ b.1

/-- The keys of an association list, in order. -/
def keysOf {κ α : Type} (l : List (κ × α)) : List κ := l.map Prod.fst

def leafTag : TypeTag := ⟨"gufe.tests.test_base", "Leaf"⟩

def contTag : TypeTag := ⟨"gufe.tests.test_base", "Container"⟩

def exLeaf : TVal := .tok leafTag [("a", .prim (.pstr "foo"))]

def exBar : TVal := .tok leafTag [("a", exLeaf)]

def exContFields : List (String × TVal) :=
  [("obj", exBar),
   ("lst", .seq [exLeaf, .prim (.pint 0)]),
   ("dct", .map [("leaf", exLeaf), ("a", .prim (.pstr "b"))])]

def exCont : TVal := .tok contTag exContFields

def exReg : List TypeTag := [leafTag, contTag]

def exRes : List (String × TVal) :=
  [(deriveKeyTok leafTag [("a", .prim (.pstr "foo"))], exLeaf),
   (deriveKeyTok leafTag [("a", exLeaf)], exBar)]

/-- `h'` preserves every live instance of `h`. -/
def HeapExt (h h' : List (Nat × GObj)) : Prop :=
  ∀ r o, lookupA r h = some o → lookupA r h' = some o

/-- Registry binding `k0 ↦ y` is present and `y` is live in the heap. -/
def GoodAt (k0 : String) (y : Nat) (st : DecState) : Prop :=
  lookupA k0 st.registry = some y ∧ (lookupA y st.heap).isSome = true

mutual
def depthV : TVal → Nat
  | .prim _ => 1
  | .tok _ _ => 1
  | .seq xs => depthL xs + 1
  | .map m => depthM m + 1

def depthL : List TVal → Nat
  | [] => 1
  | x :: xs => depthV x + depthL xs + 1

def depthM : List (String × TVal) → Nat
  | [] => 1
  | (_, v) :: rest => depthV v + depthM rest + 1
end

def exLeafObj : GObj := ⟨leafTag, [("a", HVal.prim (.pstr "foo"))]⟩

def exFsP : List (String × Plain) := [("a", Plain.prim (.pstr "foo"))]

def exStDeep : DecState :=
  ⟨[(7, exLeafObj)], 8, [(deriveKeyPlain leafTag exFsP, 7)]⟩

def exKeyedFields : List (String × TVal) := [("obj", exLeaf)]

def exContObj : GObj := ⟨contTag, []⟩

def exStKeyed : DecState :=
  ⟨[(7, exLeafObj), (9, exContObj)], 10,
   [(deriveKeyTok leafTag [("a", TVal.prim (.pstr "foo"))], 7),
    (deriveKeyTok contTag exKeyedFields, 9)]⟩

def exShFields : List (String × HVal) := [("f1", HVal.ref 0), ("f2", HVal.ref 0)]

def exShObj : GObj := ⟨contTag, exShFields⟩

def exStSh : DecState := ⟨[(0, exLeafObj), (1, exShObj)], 2, []⟩

def exShContent : List (String × TVal) := [("f1", exLeaf), ("f2", exLeaf)]

/-! ## Qualname resolver (modelled from the spec, §4.2)

`gufe.base.import_qualname` is not under `src/`; only its tests are.  The
model below follows the specification: absent (`None`) module path or
qualified name fails with an invalid-reference error; otherwise the
remapping table is consulted first, substituting the mapped target pair;
then the module is loaded and the dot-separated qualified name is walked
component by component. -/

/-- A Python attribute tree: an object with a name and named attributes,
enough to model modules containing (possibly nested) classes. -/
inductive PyObj where
  | obj : String → List (String × PyObj) → PyObj

/-- The attribute dictionary of a `PyObj`. -/
def PyObj.attrs : PyObj → List (String × PyObj)
  | .obj _ a => a

/-- A world of importable modules: module path to module namespace. -/
abbrev PyWorld := List (String × List (String × PyObj))

/-- Error taxonomy of the resolver (spec §7): a missing reference versus a
failed module load or attribute walk. -/
inductive ResolveError where
  | invalidReference : ResolveError
  | resolutionFailure : ResolveError
deriving DecidableEq, Repr

/-- Walk a dot-separated qualified name through a namespace dictionary,
descending into attribute dictionaries (supports types nested in types). -/
def walkQualname (dict : List (String × PyObj)) : List String → Option PyObj
  | [] => none
  | [c] => lookupA c dict
  | c :: rest =>
    match lookupA c dict with
    | some o => walkQualname o.attrs rest
    | none => none

/-- Modelled from the spec: `import_qualname(modname, qualname, remappings)`
from `gufe.base`.  An absent (`None`) module path or qualified name — the
spec's "absent/empty" reference — fails with *invalid-reference*.  Otherwise
the remapping table is consulted first: if the original pair appears in it,
the mapped target pair is substituted before resolution.  The module is then
looked up and the qualified name walked; failures there are *resolution*
errors. -/
def importQualname (w : PyWorld) (modname qualname : Option String)
    (remappings : List ((String × String) × (String × String))) :
    Except ResolveError PyObj :=
  match modname, qualname with
  | some m, some q =>
    let p := match lookupA (m, q) remappings with
      | some tgt => tgt
      | none => (m, q)
    match lookupA p.1 w with
    | some dict =>
      match walkQualname dict (p.2.splitOn ".") with
      | some o => .ok o
      | none => .error .resolutionFailure
    | none => .error .resolutionFailure
  | _, _ => .error .invalidReference

/-! ## Results client (embedded from `gufe/storage/resultsclient.py`) -/

/-- A value passed to `_ResultContainer._to_path_component`: either a
string, or a non-string object carrying its session-dependent Python
`hash(...)` value together with its derived gufe key. -/
inductive PathItem where
  | str : String → PathItem
  | obj : Int → String → PathItem
deriving DecidableEq, Repr

/-- The derived (cross-session-stable) key of a non-string item. -/
def PathItem.gufeKey : PathItem → Option String
  | .str _ => none
  | .obj _ k => some k

/-- Embeds `_ResultContainer._to_path_component`: a string is returned
unchanged; any other item is converted with `str(hash(item))`, the
session-dependent Python runtime hash. -/
def toPathComponent : PathItem → String
  | .str s => s
  | .obj h _ => toString h

/-- A child container built by `_load_next_level`, tagged with the
construction event that produced it so rebuilds are distinguishable. -/
structure RCChild where
  pathComponent : String
  buildId : Nat
deriving DecidableEq, Repr

/-- State of a `_ResultContainer`: its `_cache` plus a counter of
`_load_next_level` invocations. -/
structure RCState where
  cache : List (String × RCChild)
  loads : Nat
deriving DecidableEq, Repr

/-- Embeds `_load_next_level`: each call constructs a fresh next-level
container, tagged with the call counter. -/
def loadNextLevel (st : RCState) (comp : String) : RCChild × RCState :=
  (⟨comp, st.loads⟩, { st with loads := st.loads + 1 })

/-- Embeds `_ResultContainer.__getitem__`: the item is converted to its
path component; on a cache miss `_load_next_level` runs and the result is
cached; on a hit the cached child is returned unchanged. -/
def getItem (st : RCState) (item : PathItem) : RCChild × RCState :=
  let h := toPathComponent item
  match lookupA h st.cache with
  | some c => (c, st)
  | none =>
    let (c, st') := loadNextLevel st h
    (c, { st' with cache := (h, c) :: st'.cache })

/-- Embeds `_ResultContainer.__truediv__`: `container / item` delegates to
`container[item]`. -/
def divItem (st : RCState) (item : PathItem) : RCChild × RCState :=
  getItem st item

/-- A freshly opened stream, tagged by the load event that produced it. -/
structure RCStream where
  location : String
  openId : Nat
deriving DecidableEq, Repr

/-- State of an `ExtensionResults` container: its path, its (inherited but
unused) `_cache`, and a counter of `load_stream` calls. -/
structure ExtState where
  path : String
  cache : List (String × RCStream)
  loads : Nat
deriving DecidableEq, Repr

/-- Embeds `ExtensionResults.__getitem__`: the cache is not consulted and
not written; every access calls `load_stream` afresh on the file path. -/
def extGetItem (st : ExtState) (filename : String) : RCStream × ExtState :=
  (⟨st.path ++ "/" ++ filename, st.loads⟩, { st with loads := st.loads + 1 })

/-- Embeds the inherited `__truediv__` at the extensions level: it also
delegates to `__getitem__`. -/
def extDivItem (st : ExtState) (filename : String) : RCStream × ExtState :=
  extGetItem st filename

/-! ## Protocol unit (embedded from `gufe/protocols/protocolunit.py`) -/

/-- A `ProtocolUnitResult`: name, dependency results, and the keyword
outputs returned by `_execute`. -/
inductive PUResult where
  | mk : String → List PUResult → List (String × Prim) → PUResult

/-- The runtime error raised by `ProtocolUnit.execute` on the non-blocking
path: the `else` branch is a bare ellipsis, so the following
`return result` reads a never-assigned local (`UnboundLocalError`). -/
inductive ExecError where
  | unboundLocal : ExecError
deriving DecidableEq, Repr

/-- A concrete `ProtocolUnit` subclass: its class name and its abstract
`_execute` implementation. -/
structure ProtocolUnit where
  className : String
  execImpl : List PUResult → List (String × Prim)

/-- Embeds `ProtocolUnit.execute`: when `block` is true, `_execute` runs and
a `ProtocolUnitResult` is built from the class name, the dependency results
and the outputs; otherwise the `else` branch assigns nothing and the
trailing `return result` raises `UnboundLocalError`, embedded as an
exceptional return. -/
def ProtocolUnit.execute (u : ProtocolUnit) (dependencyResults : List PUResult)
    (block : Bool) : Except ExecError PUResult :=
  if block then
    .ok (.mk u.className dependencyResults (u.execImpl dependencyResults))
  else
    .error .unboundLocal

/-- A module world mirroring the test module: `Outer` containing `Inner`. -/
def exOuter : PyObj := .obj "Outer" [("Inner", .obj "Inner" [])]

def exWorld : PyWorld := [("gufe.tests.test_base", [("Outer", exOuter)])]

/-- The remapping table of the remapping test: the old location
`("foo", "Bar.Baz")` maps to `Outer.Inner` at its current location. -/
def exRemap : List ((String × String) × (String × String)) :=
  [(("foo", "Bar.Baz"), ("gufe.tests.test_base", "Outer.Inner"))]

/-! ## Lemmas and claim theorems -/

theorem chLe_total : ∀ x y : List Char, chLe x y = true ∨ chLe y x = true := by
  intro x
  induction x with
  | nil => intro y; left; rfl
  | cons a as ih =>
    intro y
    cases y with
    | nil => right; rfl
    | cons b bs =>
      simp only [chLe, Bool.or_eq_true, Bool.and_eq_true, Nat.blt_eq, Nat.beq_eq]
      rcases Nat.lt_trichotomy a.toNat b.toNat with h | h | h
      · left; left; exact h
      · rcases ih bs with h' | h'
        · left; right; exact ⟨h, h'⟩
        · right; right; exact ⟨h.symm, h'⟩
      · right; left; exact h

theorem chLe_trans : ∀ x y z : List Char,
    chLe x y = true → chLe y z = true → chLe x z = true := by
  intro x
  induction x with
  | nil => intro y z _ _; rfl
  | cons a as ih =>
    intro y z hxy hyz
    cases y with
    | nil => simp [chLe] at hxy
    | cons b bs =>
      cases z with
      | nil => simp [chLe] at hyz
      | cons c cs =>
        simp only [chLe, Bool.or_eq_true, Bool.and_eq_true, Nat.blt_eq, Nat.beq_eq] at *
        rcases hxy with h1 | ⟨h1, h1'⟩
        · rcases hyz with h2 | ⟨h2, _⟩
          · left; exact Nat.lt_trans h1 h2
          · left; omega
        · rcases hyz with h2 | ⟨h2, h2'⟩
          · left; omega
          · right; exact ⟨by omega, ih bs cs h1' h2'⟩

theorem char_toNat_inj {a b : Char} (h : a.toNat = b.toNat) : a = b := by
  have ha := Char.ofNat_toNat a
  have hb := Char.ofNat_toNat b
  rw [← ha, ← hb, h]

theorem chLe_antisymm : ∀ x y : List Char,
    chLe x y = true → chLe y x = true → x = y := by
  intro x
  induction x with
  | nil =>
    intro y _ hyx
    cases y with
    | nil => rfl
    | cons b bs => simp [chLe] at hyx
  | cons a as ih =>
    intro y hxy hyx
    cases y with
    | nil => simp [chLe] at hxy
    | cons b bs =>
      simp only [chLe, Bool.or_eq_true, Bool.and_eq_true, Nat.blt_eq, Nat.beq_eq] at hxy hyx
      have hab : a.toNat = b.toNat := by
        rcases hxy with h1 | ⟨h1, _⟩ <;> rcases hyx with h2 | ⟨h2, _⟩ <;> omega
      have : as = bs := by
        rcases hxy with h1 | ⟨_, h1'⟩
        · rcases hyx with h2 | ⟨h2, _⟩ <;> omega
        · rcases hyx with h2 | ⟨_, h2'⟩
          · omega
          · exact ih bs h1' h2'
      rw [char_toNat_inj hab, this]

theorem string_data_inj {s t : String} (h : s.data = t.data) : s = t := by
  cases s; cases t; exact congrArg String.mk h

instance : IsTotal (String × Plain) keyLE :=
  ⟨fun a b => chLe_total a.1.data b.1.data⟩

instance : IsTrans (String × Plain) keyLE :=
  ⟨fun a b c => chLe_trans a.1.data b.1.data c.1.data⟩

instance : IsAntisymm (String × Plain) keyLT :=
  ⟨fun a b h1 h2 =>
    absurd (string_data_inj (chLe_antisymm a.1.data b.1.data h1.1 h2.1)) h1.2⟩

theorem mem_of_lookupA {κ α : Type} [DecidableEq κ] {k : κ} {v : α} :
    ∀ {l : List (κ × α)}, lookupA k l = some v → (k, v) ∈ l := by
  intro l
  induction l with
  | nil => intro h; simp [lookupA] at h
  | cons kv rest ih =>
    intro h
    obtain ⟨k', v'⟩ := kv
    by_cases hk : k' = k
    · subst hk
      simp [lookupA] at h
      simp [h]
    · simp [lookupA, hk] at h
      exact List.mem_cons_of_mem _ (ih h)

theorem lookupA_of_mem_nodup {κ α : Type} [DecidableEq κ] {k : κ} {v : α} :
    ∀ {l : List (κ × α)}, (keysOf l).Nodup → (k, v) ∈ l → lookupA k l = some v := by
  intro l
  induction l with
  | nil => intro _ h; simp at h
  | cons kv rest ih =>
    intro hnd hmem
    obtain ⟨k', v'⟩ := kv
    simp only [keysOf, List.map_cons, List.nodup_cons] at hnd
    rcases List.mem_cons.mp hmem with heq | hmem'
    · injection heq with h1 h2
      subst h1; subst h2
      simp [lookupA]
    · have hk : k' ≠ k := by
        intro hk
        subst hk
        exact hnd.1 (List.mem_map.mpr ⟨(k', v), hmem', rfl⟩)
      rw [lookupA, if_neg hk]
      exact ih hnd.2 hmem'

theorem lookupA_none_iff {κ α : Type} [DecidableEq κ] {k : κ} :
    ∀ {l : List (κ × α)}, lookupA k l = none ↔ k ∉ keysOf l := by
  intro l
  induction l with
  | nil => simp [lookupA, keysOf]
  | cons kv rest ih =>
    obtain ⟨k', v'⟩ := kv
    by_cases hk : k' = k
    · subst hk
      simp [lookupA, keysOf]
    · simp only [lookupA, if_neg hk, ih, keysOf, List.map_cons, List.mem_cons, not_or]
      constructor
      · intro h
        exact ⟨fun he => hk he.symm, h⟩
      · intro h
        exact h.2

theorem perm_cons_eraseA {κ α : Type} [DecidableEq κ] {k : κ} {v : α} :
    ∀ {l : List (κ × α)}, lookupA k l = some v → l.Perm ((k, v) :: eraseA k l) := by
  intro l
  induction l with
  | nil => intro h; simp [lookupA] at h
  | cons kv rest ih =>
    intro h
    obtain ⟨k', v'⟩ := kv
    by_cases hk : k' = k
    · subst hk
      simp [lookupA] at h
      subst h
      simp [eraseA]
    · simp [lookupA, hk] at h
      have := ih h
      simp only [eraseA, if_neg hk]
      exact (List.Perm.cons _ this).trans (List.Perm.swap _ _ _)

theorem eraseA_sublist {κ α : Type} [DecidableEq κ] (k : κ) :
    ∀ (l : List (κ × α)), (eraseA k l).Sublist l := by
  intro l
  induction l with
  | nil => simp [eraseA]
  | cons kv rest ih =>
    obtain ⟨k', v'⟩ := kv
    by_cases hk : k' = k
    · simp [eraseA, hk]
    · simpa [eraseA, hk] using ih.cons₂ (k', v')

theorem nodupKeys_iff {κ α : Type} [DecidableEq κ] :
    ∀ {l : List (κ × α)}, nodupKeys l = true ↔ (keysOf l).Nodup := by
  intro l
  induction l with
  | nil => simp [nodupKeys, keysOf]
  | cons kv rest ih =>
    obtain ⟨k', v'⟩ := kv
    simp only [nodupKeys, Bool.and_eq_true, Option.isNone_iff_eq_none, keysOf,
      List.map_cons, List.nodup_cons, ih]
    rw [lookupA_none_iff]
    simp [keysOf]

theorem canonM_eq_map : ∀ m : List (String × TVal),
    canonM m = m.map (fun kv => (kv.1, canonV kv.2)) := by
  intro m
  induction m with
  | nil => rfl
  | cons kv rest ih =>
    obtain ⟨k, v⟩ := kv
    simp [canonM, ih]

theorem keysOf_canonM (m : List (String × TVal)) : keysOf (canonM m) = keysOf m := by
  rw [canonM_eq_map]
  simp [keysOf]

theorem canonL_eq_map : ∀ xs : List TVal, canonL xs = xs.map canonV := by
  intro xs
  induction xs with
  | nil => rfl
  | cons x rest ih => simp [canonL, ih]

theorem wfM_mem : ∀ {m : List (String × TVal)}, wfM m = true →
    ∀ kv ∈ m, wfV kv.2 = true := by
  intro m
  induction m with
  | nil => intro _ kv h; simp at h
  | cons kv0 rest ih =>
    intro hwf kv hmem
    obtain ⟨k0, v0⟩ := kv0
    simp only [wfM, Bool.and_eq_true] at hwf
    rcases List.mem_cons.mp hmem with rfl | hmem'
    · exact hwf.1
    · exact ih hwf.2 kv hmem'

theorem wfM_of_forall : ∀ {m : List (String × TVal)},
    (∀ kv ∈ m, wfV kv.2 = true) → wfM m = true := by
  intro m
  induction m with
  | nil => intro _; rfl
  | cons kv0 rest ih =>
    intro h
    obtain ⟨k0, v0⟩ := kv0
    simp only [wfM, Bool.and_eq_true]
    exact ⟨h (k0, v0) (List.mem_cons_self _ _), ih fun kv hm => h kv (List.mem_cons_of_mem _ hm)⟩

theorem wfM_sublist {m m' : List (String × TVal)} (hs : m'.Sublist m)
    (hwf : wfM m = true) : wfM m' = true :=
  wfM_of_forall fun kv hm => wfM_mem hwf kv (hs.mem hm)

theorem sortFields_perm (l : List (String × Plain)) : (sortFields l).Perm l :=
  List.perm_insertionSort keyLE l

theorem sortFields_sorted (l : List (String × Plain)) :
    List.Sorted keyLE (sortFields l) :=
  List.sorted_insertionSort keyLE l

theorem sorted_strict {l : List (String × Plain)} (hs : List.Sorted keyLE l)
    (hnd : (keysOf l).Nodup) : List.Sorted keyLT l := by
  have hne : l.Pairwise (fun a b => a.1 ≠ b.1) := List.pairwise_map.mp hnd
  exact (hs.and hne).imp fun h => ⟨h.1, h.2⟩

theorem sortFields_eq_of_perm {l1 l2 : List (String × Plain)} (hp : l1.Perm l2)
    (hnd : (keysOf l1).Nodup) : sortFields l1 = sortFields l2 := by
  have hnd2 : (keysOf l2).Nodup := ((hp.map Prod.fst).nodup_iff).mp hnd
  have hp' : (sortFields l1).Perm (sortFields l2) :=
    (sortFields_perm l1).trans (hp.trans (sortFields_perm l2).symm)
  have hs1 : List.Sorted keyLT (sortFields l1) :=
    sorted_strict (sortFields_sorted l1)
      ((((sortFields_perm l1).map Prod.fst).nodup_iff).mpr hnd)
  have hs2 : List.Sorted keyLT (sortFields l2) :=
    sorted_strict (sortFields_sorted l2)
      ((((sortFields_perm l2).map Prod.fst).nodup_iff).mpr hnd2)
  exact List.eq_of_perm_of_sorted hp' hs1 hs2

mutual
theorem canonV_eq_of_contentEq : ∀ (x y : TVal), wfV x = true → wfV y = true →
    contentEqV x y = true → canonV x = canonV y
  | .prim p, .prim q, _, _, he => by
    simp only [contentEqV, beq_iff_eq] at he
    rw [he]
  | .prim _, .tok _ _, _, _, he => by simp [contentEqV] at he
  | .prim _, .seq _, _, _, he => by simp [contentEqV] at he
  | .prim _, .map _, _, _, he => by simp [contentEqV] at he
  | .tok _ _, .prim _, _, _, he => by simp [contentEqV] at he
  | .tok t1 f1, .tok t2 f2, hw1, hw2, he => by
    simp only [contentEqV, Bool.and_eq_true, beq_iff_eq] at he
    simp only [wfV, Bool.and_eq_true] at hw1 hw2
    obtain ⟨ht, hm⟩ := he
    subst ht
    have hperm := canonM_perm_of_contentEq f1 f2 hw1.2 hw2.2 hm
    have hnd : (keysOf (canonM f1)).Nodup := by
      rw [keysOf_canonM]
      exact nodupKeys_iff.mp hw1.1
    simp only [canonV]
    rw [sortFields_eq_of_perm hperm hnd]
  | .tok _ _, .seq _, _, _, he => by simp [contentEqV] at he
  | .tok _ _, .map _, _, _, he => by simp [contentEqV] at he
  | .seq _, .prim _, _, _, he => by simp [contentEqV] at he
  | .seq _, .tok _ _, _, _, he => by simp [contentEqV] at he
  | .seq xs, .seq ys, hw1, hw2, he => by
    simp only [contentEqV] at he
    simp only [wfV] at hw1 hw2
    simp only [canonV]
    rw [canonL_eq_of_contentEq xs ys hw1 hw2 he]
  | .seq _, .map _, _, _, he => by simp [contentEqV] at he
  | .map _, .prim _, _, _, he => by simp [contentEqV] at he
  | .map _, .tok _ _, _, _, he => by simp [contentEqV] at he
  | .map _, .seq _, _, _, he => by simp [contentEqV] at he
  | .map m1, .map m2, hw1, hw2, he => by
    simp only [contentEqV] at he
    simp only [wfV, Bool.and_eq_true] at hw1 hw2
    have hperm := canonM_perm_of_contentEq m1 m2 hw1.2 hw2.2 he
    have hnd : (keysOf (canonM m1)).Nodup := by
      rw [keysOf_canonM]
      exact nodupKeys_iff.mp hw1.1
    simp only [canonV]
    rw [sortFields_eq_of_perm hperm hnd]

theorem canonL_eq_of_contentEq : ∀ (xs ys : List TVal), wfL xs = true → wfL ys = true →
    contentEqL xs ys = true → canonL xs = canonL ys
  | [], [], _, _, _ => rfl
  | [], _ :: _, _, _, he => by simp [contentEqL] at he
  | _ :: _, [], _, _, he => by simp [contentEqL] at he
  | x :: xs, y :: ys, hw1, hw2, he => by
    simp only [contentEqL, Bool.and_eq_true] at he
    simp only [wfL, Bool.and_eq_true] at hw1 hw2
    simp only [canonL]
    rw [canonV_eq_of_contentEq x y hw1.1 hw2.1 he.1,
      canonL_eq_of_contentEq xs ys hw1.2 hw2.2 he.2]

theorem canonM_perm_of_contentEq : ∀ (m1 m2 : List (String × TVal)), wfM m1 = true →
    wfM m2 = true → contentEqM m1 m2 = true → (canonM m1).Perm (canonM m2)
  | [], m2, _, _, he => by
    simp only [contentEqM, List.isEmpty_iff] at he
    subst he
    rfl
  | (k, v) :: rest, m2, hw1, hw2, he => by
    simp only [contentEqM] at he
    cases hlk : lookupA k m2 with
    | none => rw [hlk] at he; simp at he
    | some w =>
      rw [hlk] at he
      simp only [Bool.and_eq_true] at he
      obtain ⟨hvw, hrest⟩ := he
      simp only [wfM, Bool.and_eq_true] at hw1
      have hww : wfV w = true := wfM_mem hw2 (k, w) (mem_of_lookupA hlk)
      have hwe : wfM (eraseA k m2) = true := wfM_sublist (eraseA_sublist k m2) hw2
      have h1 : canonV v = canonV w := canonV_eq_of_contentEq v w hw1.1 hww hvw
      have h2 : (canonM rest).Perm (canonM (eraseA k m2)) :=
        canonM_perm_of_contentEq rest (eraseA k m2) hw1.2 hwe hrest
      have h3 : m2.Perm ((k, w) :: eraseA k m2) := perm_cons_eraseA hlk
      have h4 : (canonM m2).Perm ((k, canonV w) :: canonM (eraseA k m2)) := by
        have hm := h3.map (fun kv => (kv.1, canonV kv.2))
        rw [canonM_eq_map, canonM_eq_map]
        simpa using hm
      simp only [canonM]
      rw [h1]
      exact (List.Perm.cons _ h2).trans h4.symm
end

mutual
theorem contentEqV_refl : ∀ x : TVal, contentEqV x x = true
  | .prim p => by simp [contentEqV]
  | .tok t fs => by
    simp only [contentEqV, beq_self_eq_true, Bool.true_and]
    exact contentEqM_refl fs
  | .seq xs => by
    simp only [contentEqV]
    exact contentEqL_refl xs
  | .map m => by
    simp only [contentEqV]
    exact contentEqM_refl m

theorem contentEqL_refl : ∀ xs : List TVal, contentEqL xs xs = true
  | [] => rfl
  | x :: xs => by
    simp only [contentEqL, Bool.and_eq_true]
    exact ⟨contentEqV_refl x, contentEqL_refl xs⟩

theorem contentEqM_refl : ∀ m : List (String × TVal), contentEqM m m = true
  | [] => rfl
  | (k, v) :: rest => by
    have h1 : lookupA k ((k, v) :: rest) = some v := by simp [lookupA]
    have h2 : eraseA k ((k, v) :: rest) = rest := by simp [eraseA]
    simp only [contentEqM, h1, h2, Bool.and_eq_true]
    exact ⟨contentEqV_refl v, contentEqM_refl rest⟩
end

theorem contentEqM_of_perm : ∀ (m1 m2 : List (String × TVal)), m1.Perm m2 →
    nodupKeys m1 = true → contentEqM m1 m2 = true
  | [], m2, hp, _ => by
    rw [List.Perm.eq_nil hp.symm]
    rfl
  | (k, v) :: rest, m2, hp, hnd => by
    simp only [nodupKeys, Bool.and_eq_true, Option.isNone_iff_eq_none] at hnd
    have hnd2 : (keysOf m2).Nodup := by
      have h1 : (keysOf ((k, v) :: rest)).Nodup := by
        rw [← nodupKeys_iff]
        simp [nodupKeys, hnd.1, hnd.2]
      exact ((hp.map Prod.fst).nodup_iff).mp h1
    have hmem : (k, v) ∈ m2 := hp.mem_iff.mp (List.mem_cons_self _ _)
    have hlk : lookupA k m2 = some v := lookupA_of_mem_nodup hnd2 hmem
    have hpe : rest.Perm (eraseA k m2) :=
      (List.Perm.cons_inv (hp.trans (perm_cons_eraseA hlk)))
    simp only [contentEqM, hlk, Bool.and_eq_true]
    exact ⟨contentEqV_refl v, contentEqM_of_perm rest (eraseA k m2) hpe hnd.2⟩

theorem wfM_of_perm {m1 m2 : List (String × TVal)} (hp : m1.Perm m2)
    (hw : wfM m1 = true) : wfM m2 = true :=
  wfM_of_forall fun kv hm => wfM_mem hw kv (hp.mem_iff.mpr hm)

theorem nodupKeys_of_perm {m1 m2 : List (String × TVal)} (hp : m1.Perm m2)
    (hw : nodupKeys m1 = true) : nodupKeys m2 = true :=
  nodupKeys_iff.mpr (((hp.map Prod.fst).nodup_iff).mp (nodupKeys_iff.mp hw))

/-- Claim C2: two Tokenizables with content-equal fields (recursively, with
mapping fields compared without regard to order) derive equal keys; in
particular any permutation of the field list yields the same key.  The key
is a pure function of content alone, hence identical across process
restarts for equal content. -/
theorem deriveKey_content_stable :
    (∀ (t1 t2 : TypeTag) (f1 f2 : List (String × TVal)),
        wfV (.tok t1 f1) = true → wfV (.tok t2 f2) = true →
        contentEqV (.tok t1 f1) (.tok t2 f2) = true →
        deriveKeyTok t1 f1 = deriveKeyTok t2 f2)
    ∧ (∀ (t : TypeTag) (f1 f2 : List (String × TVal)),
        wfV (.tok t f1) = true → f1.Perm f2 →
        deriveKeyTok t f1 = deriveKeyTok t f2) := by
  constructor
  · intro t1 t2 f1 f2 hw1 hw2 he
    have hcv := canonV_eq_of_contentEq (.tok t1 f1) (.tok t2 f2) hw1 hw2 he
    have ht : t1 = t2 := by
      simp only [contentEqV, Bool.and_eq_true, beq_iff_eq] at he
      exact he.1
    subst ht
    simp only [deriveKeyTok, hcv]
  · intro t f1 f2 hw1 hp
    have hw1' := hw1
    simp only [wfV, Bool.and_eq_true] at hw1'
    have hw2 : wfV (.tok t f2) = true := by
      simp only [wfV, Bool.and_eq_true]
      exact ⟨nodupKeys_of_perm hp hw1'.1, wfM_of_perm hp hw1'.2⟩
    have he : contentEqV (.tok t f1) (.tok t f2) = true := by
      simp only [contentEqV, beq_self_eq_true, Bool.true_and]
      exact contentEqM_of_perm f1 f2 hp hw1'.1
    have hcv := canonV_eq_of_contentEq (.tok t f1) (.tok t f2) hw1 hw2 he
    simp only [deriveKeyTok, hcv]

theorem deriveKey_content_stable_witness :
    deriveKeyTok ⟨"m", "Leaf"⟩ [("a", .prim (.pstr "foo")), ("b", .prim (.pint 2))] =
      deriveKeyTok ⟨"m", "Leaf"⟩ [("b", .prim (.pint 2)), ("a", .prim (.pstr "foo"))] ∧
    deriveKeyTok ⟨"m", "Leaf"⟩ [("a", .prim (.pstr "foo")), ("b", .prim (.pint 2))] =
      deriveKeyTok ⟨"m", "Leaf"⟩ [("b", .prim (.pint 2)), ("a", .prim (.pstr "foo"))] :=
  ⟨deriveKey_content_stable.1 ⟨"m", "Leaf"⟩ ⟨"m", "Leaf"⟩
      [("a", .prim (.pstr "foo")), ("b", .prim (.pint 2))]
      [("b", .prim (.pint 2)), ("a", .prim (.pstr "foo"))]
      (by decide) (by decide) (by decide),
    deriveKey_content_stable.2 ⟨"m", "Leaf"⟩
      [("a", .prim (.pstr "foo")), ("b", .prim (.pint 2))]
      [("b", .prim (.pint 2)), ("a", .prim (.pstr "foo"))]
      (by decide)
      (List.Perm.swap ("b", TVal.prim (Prim.pint 2)) ("a", TVal.prim (Prim.pstr "foo")) [])⟩

mutual
theorem eq_of_beqV : ∀ {x y : TVal}, beqV x y = true → x = y
  | .prim p, .prim q, h => by
    simp only [beqV, beq_iff_eq] at h
    rw [h]
  | .prim _, .tok _ _, h => by simp [beqV] at h
  | .prim _, .seq _, h => by simp [beqV] at h
  | .prim _, .map _, h => by simp [beqV] at h
  | .tok _ _, .prim _, h => by simp [beqV] at h
  | .tok t1 f1, .tok t2 f2, h => by
    simp only [beqV, Bool.and_eq_true, beq_iff_eq] at h
    rw [h.1, eq_of_beqM h.2]
  | .tok _ _, .seq _, h => by simp [beqV] at h
  | .tok _ _, .map _, h => by simp [beqV] at h
  | .seq _, .prim _, h => by simp [beqV] at h
  | .seq _, .tok _ _, h => by simp [beqV] at h
  | .seq xs, .seq ys, h => by
    simp only [beqV] at h
    rw [eq_of_beqL h]
  | .seq _, .map _, h => by simp [beqV] at h
  | .map _, .prim _, h => by simp [beqV] at h
  | .map _, .tok _ _, h => by simp [beqV] at h
  | .map _, .seq _, h => by simp [beqV] at h
  | .map m1, .map m2, h => by
    simp only [beqV] at h
    rw [eq_of_beqM h]

theorem eq_of_beqL : ∀ {xs ys : List TVal}, beqL xs ys = true → xs = ys
  | [], [], _ => rfl
  | [], _ :: _, h => by simp [beqL] at h
  | _ :: _, [], h => by simp [beqL] at h
  | x :: xs, y :: ys, h => by
    simp only [beqL, Bool.and_eq_true] at h
    rw [eq_of_beqV h.1, eq_of_beqL h.2]

theorem eq_of_beqM : ∀ {m1 m2 : List (String × TVal)}, beqM m1 m2 = true → m1 = m2
  | [], [], _ => rfl
  | [], _ :: _, h => by simp [beqM] at h
  | _ :: _, [], h => by simp [beqM] at h
  | (k1, v) :: vs, (k2, w) :: ws, h => by
    simp only [beqM, Bool.and_eq_true, beq_iff_eq] at h
    rw [h.1.1, eq_of_beqV h.1.2, eq_of_beqM h.2]
end

mutual
theorem fromDeep_toDeepV : ∀ (reg : List TypeTag) (v : TVal), tagsKnownV reg v = true →
    fromDeepV reg (toDeepV v) = some v
  | reg, .prim p, _ => rfl
  | reg, .tok t fs, h => by
    simp only [tagsKnownV, Bool.and_eq_true, decide_eq_true_eq] at h
    simp only [toDeepV, fromDeepV, if_pos h.1, fromDeep_toDeepM reg fs h.2, Option.map_some']
  | reg, .seq xs, h => by
    simp only [tagsKnownV] at h
    simp only [toDeepV, fromDeepV, fromDeep_toDeepL reg xs h, Option.map_some']
  | reg, .map m, h => by
    simp only [tagsKnownV] at h
    simp only [toDeepV, fromDeepV, fromDeep_toDeepM reg m h, Option.map_some']

theorem fromDeep_toDeepL : ∀ (reg : List TypeTag) (xs : List TVal),
    tagsKnownL reg xs = true → fromDeepL reg (toDeepL xs) = some xs
  | reg, [], _ => rfl
  | reg, x :: xs, h => by
    simp only [tagsKnownL, Bool.and_eq_true] at h
    simp only [toDeepL, fromDeepL, fromDeep_toDeepV reg x h.1, fromDeep_toDeepL reg xs h.2]

theorem fromDeep_toDeepM : ∀ (reg : List TypeTag) (m : List (String × TVal)),
    tagsKnownM reg m = true → fromDeepM reg (toDeepM m) = some m
  | reg, [], _ => rfl
  | reg, (k, v) :: rest, h => by
    simp only [tagsKnownM, Bool.and_eq_true] at h
    simp only [toDeepM, fromDeepM, fromDeep_toDeepV reg v h.1, fromDeep_toDeepM reg rest h.2]
end

/-- Claim C3: decoding the deep (fully expanded) representation of any
value yields a result content-equal to it, whenever every type tag occurring
in the value is resolvable; and fromFields is inverse to toFields up to
content equality. -/
theorem deep_roundtrip :
    (∀ (reg : List TypeTag) (x : TVal), tagsKnownV reg x = true →
      ∃ y, fromDeepV reg (toDeepV x) = some y ∧ contentEqV x y = true)
    ∧ (∀ (t : TypeTag) (fs : List (String × TVal)),
      toFields (.tok t fs) = some fs ∧
        contentEqV (fromFields t fs) (.tok t fs) = true) := by
  constructor
  · intro reg x h
    exact ⟨x, fromDeep_toDeepV reg x h, contentEqV_refl x⟩
  · intro t fs
    exact ⟨rfl, contentEqV_refl (.tok t fs)⟩

mutual
theorem fromKeyed_toKeyedV : ∀ (reg : List TypeTag) (res : List (String × TVal)) (v : TVal),
    resolvableV res v = true → fromKeyedV reg res (toKeyedV v) = some v
  | reg, res, .prim p, _ => rfl
  | reg, res, .tok t fs, h => by
    simp only [resolvableV] at h
    cases hlk : lookupA (deriveKeyTok t fs) res with
    | none => rw [hlk] at h; simp at h
    | some w =>
      rw [hlk] at h
      simp only [toKeyedV, fromKeyedV, hlk]
      rw [eq_of_beqV h]
  | reg, res, .seq xs, h => by
    simp only [resolvableV] at h
    simp only [toKeyedV, fromKeyedV, fromKeyed_toKeyedL reg res xs h, Option.map_some']
  | reg, res, .map m, h => by
    simp only [resolvableV] at h
    simp only [toKeyedV, fromKeyedV, fromKeyed_toKeyedM reg res m h, Option.map_some']

theorem fromKeyed_toKeyedL : ∀ (reg : List TypeTag) (res : List (String × TVal))
    (xs : List TVal), resolvableL res xs = true →
    fromKeyedL reg res (toKeyedL xs) = some xs
  | reg, res, [], _ => rfl
  | reg, res, x :: xs, h => by
    simp only [resolvableL, Bool.and_eq_true] at h
    simp only [toKeyedL, fromKeyedL, fromKeyed_toKeyedV reg res x h.1,
      fromKeyed_toKeyedL reg res xs h.2]

theorem fromKeyed_toKeyedM : ∀ (reg : List TypeTag) (res : List (String × TVal))
    (m : List (String × TVal)), resolvableM res m = true →
    fromKeyedM reg res (toKeyedM m) = some m
  | reg, res, [], _ => rfl
  | reg, res, (k, v) :: rest, h => by
    simp only [resolvableM, Bool.and_eq_true] at h
    simp only [toKeyedM, fromKeyedM, fromKeyed_toKeyedV reg res v h.1,
      fromKeyed_toKeyedM reg res rest h.2]
end

/-- Claim C6: when every directly-held nested Tokenizable is resolvable by
its derived key at decode time, the keyed round-trip
fromKeyed(toKeyed(x)) yields a value content-equal to x, where toKeyed
replaces each directly-held nested Tokenizable by a single-field marker
carrying only its derived key. -/
theorem keyed_roundtrip : ∀ (reg : List TypeTag) (res : List (String × TVal))
    (t : TypeTag) (fs : List (String × TVal)), t ∈ reg → resolvableM res fs = true →
    ∃ y, fromKeyedTok reg res (toKeyedTok t fs) = some y ∧
      contentEqV (.tok t fs) y = true := by
  intro reg res t fs ht h
  refine ⟨.tok t fs, ?_, contentEqV_refl _⟩
  simp only [toKeyedTok, fromKeyedTok, if_pos ht, fromKeyed_toKeyedM reg res fs h,
    Option.map_some']

theorem deep_roundtrip_witness :
    tagsKnownV exReg exCont = true ∧
    (∃ y, fromDeepV exReg (toDeepV exCont) = some y ∧ contentEqV exCont y = true) :=
  ⟨by decide, deep_roundtrip.1 exReg exCont (by decide)⟩

theorem keyed_roundtrip_witness :
    (contTag ∈ exReg ∧ resolvableM exRes exContFields = true) ∧
    (∃ y, fromKeyedTok exReg exRes (toKeyedTok contTag exContFields) = some y ∧
      contentEqV (.tok contTag exContFields) y = true) :=
  ⟨⟨by decide, by decide⟩,
    keyed_roundtrip exReg exRes contTag exContFields (by decide) (by decide)⟩

theorem lookupA_eraseA_ne {κ α : Type} [DecidableEq κ] {k k' : κ} (hne : k ≠ k') :
    ∀ l : List (κ × α), lookupA k (eraseA k' l) = lookupA k l := by
  intro l
  induction l with
  | nil => rfl
  | cons kv rest ih =>
    obtain ⟨k0, v0⟩ := kv
    by_cases h0 : k0 = k'
    · have hk0k : ¬(k0 = k) := fun h => hne (h ▸ h0)
      have hk'k : ¬(k' = k) := fun h => hne h.symm
      simp [eraseA, h0, lookupA, hk0k, hk'k]
    · by_cases h1 : k0 = k
      · subst h1
        simp [eraseA, h0, lookupA]
      · simp [eraseA, h0, lookupA, h1, ih]

theorem heapExt_refl (h : List (Nat × GObj)) : HeapExt h h := fun _ _ hx => hx

theorem heapExt_trans {h1 h2 h3 : List (Nat × GObj)} (a : HeapExt h1 h2)
    (b : HeapExt h2 h3) : HeapExt h1 h3 := fun r o hx => b r o (a r o hx)

theorem stOk_lookup_lt {st : DecState} {r : Nat} {o : GObj} (hok : stOk st = true)
    (hx : lookupA r st.heap = some o) : r < st.nextRef := by
  have hmem := mem_of_lookupA hx
  have := List.all_eq_true.mp hok _ hmem
  simpa using this

theorem heapExt_alloc {st : DecState} (hok : stOk st = true) (o : GObj) :
    HeapExt st.heap ((st.nextRef, o) :: st.heap) := by
  intro r o' hx
  have hlt := stOk_lookup_lt hok hx
  have hne : st.nextRef ≠ r := fun h => absurd (h ▸ hlt) (lt_irrefl _)
  simpa [lookupA, hne] using hx

mutual
theorem contentOfV_mono : ∀ (h : List (Nat × GObj)) (f f' : Nat) (v : HVal) (c : TVal),
    f ≤ f' → contentOfV h f v = some c → contentOfV h f' v = some c
  | h, 0, _, v, c, _, hc => by simp [contentOfV] at hc
  | h, f + 1, f' + 1, .prim p, c, _, hc => hc
  | h, f + 1, f' + 1, .ref r, c, hle, hc => by
    simp only [contentOfV] at hc ⊢
    cases hlk : lookupA r h with
    | none => simp [hlk] at hc
    | some o =>
      simp only [hlk] at hc ⊢
      cases hm : contentOfM h f o.fields with
      | none => simp [hm] at hc
      | some fs =>
        simp only [hm, Option.map_some'] at hc
        rw [contentOfM_mono h f f' o.fields fs (by omega) hm]
        simpa using hc
  | h, f + 1, f' + 1, .seq xs, c, hle, hc => by
    simp only [contentOfV] at hc ⊢
    cases hm : contentOfL h f xs with
    | none => simp [hm] at hc
    | some vs =>
      simp only [hm, Option.map_some'] at hc
      rw [contentOfL_mono h f f' xs vs (by omega) hm]
      simpa using hc
  | h, f + 1, f' + 1, .map m, c, hle, hc => by
    simp only [contentOfV] at hc ⊢
    cases hm : contentOfM h f m with
    | none => simp [hm] at hc
    | some ws =>
      simp only [hm, Option.map_some'] at hc
      rw [contentOfM_mono h f f' m ws (by omega) hm]
      simpa using hc
  | h, f + 1, 0, v, c, hle, hc => absurd hle (by omega)

theorem contentOfL_mono : ∀ (h : List (Nat × GObj)) (f f' : Nat) (xs : List HVal)
    (cs : List TVal), f ≤ f' → contentOfL h f xs = some cs → contentOfL h f' xs = some cs
  | h, 0, _, xs, cs, _, hc => by simp [contentOfL] at hc
  | h, f + 1, f' + 1, [], cs, _, hc => hc
  | h, f + 1, f' + 1, x :: xs, cs, hle, hc => by
    simp only [contentOfL] at hc ⊢
    cases hv : contentOfV h f x with
    | none => simp [hv] at hc
    | some v =>
      simp only [hv] at hc
      cases hl : contentOfL h f xs with
      | none => simp [hl] at hc
      | some vs =>
        simp only [hl] at hc
        rw [contentOfV_mono h f f' x v (by omega) hv,
          contentOfL_mono h f f' xs vs (by omega) hl]
        exact hc
  | h, f + 1, 0, xs, cs, hle, hc => absurd hle (by omega)

theorem contentOfM_mono : ∀ (h : List (Nat × GObj)) (f f' : Nat)
    (m : List (String × HVal)) (cs : List (String × TVal)), f ≤ f' →
    contentOfM h f m = some cs → contentOfM h f' m = some cs
  | h, 0, _, m, cs, _, hc => by simp [contentOfM] at hc
  | h, f + 1, f' + 1, [], cs, _, hc => hc
  | h, f + 1, f' + 1, (k, v) :: rest, cs, hle, hc => by
    simp only [contentOfM] at hc ⊢
    cases hv : contentOfV h f v with
    | none => simp [hv] at hc
    | some w =>
      simp only [hv] at hc
      cases hm : contentOfM h f rest with
      | none => simp [hm] at hc
      | some ws =>
        simp only [hm] at hc
        rw [contentOfV_mono h f f' v w (by omega) hv,
          contentOfM_mono h f f' rest ws (by omega) hm]
        exact hc
  | h, f + 1, 0, m, cs, hle, hc => absurd hle (by omega)
end

mutual
theorem contentOfV_ext : ∀ (h h' : List (Nat × GObj)) (f : Nat) (v : HVal) (c : TVal),
    HeapExt h h' → contentOfV h f v = some c → contentOfV h' f v = some c
  | h, h', 0, v, c, _, hc => by simp [contentOfV] at hc
  | h, h', f + 1, .prim p, c, _, hc => hc
  | h, h', f + 1, .ref r, c, hx, hc => by
    simp only [contentOfV] at hc ⊢
    cases hlk : lookupA r h with
    | none => simp [hlk] at hc
    | some o =>
      simp only [hlk] at hc
      simp only [hx r o hlk]
      cases hm : contentOfM h f o.fields with
      | none => simp [hm] at hc
      | some fs =>
        simp only [hm, Option.map_some'] at hc
        rw [contentOfM_ext h h' f o.fields fs hx hm]
        simpa using hc
  | h, h', f + 1, .seq xs, c, hx, hc => by
    simp only [contentOfV] at hc ⊢
    cases hm : contentOfL h f xs with
    | none => simp [hm] at hc
    | some vs =>
      simp only [hm, Option.map_some'] at hc
      rw [contentOfL_ext h h' f xs vs hx hm]
      simpa using hc
  | h, h', f + 1, .map m, c, hx, hc => by
    simp only [contentOfV] at hc ⊢
    cases hm : contentOfM h f m with
    | none => simp [hm] at hc
    | some ws =>
      simp only [hm, Option.map_some'] at hc
      rw [contentOfM_ext h h' f m ws hx hm]
      simpa using hc

theorem contentOfL_ext : ∀ (h h' : List (Nat × GObj)) (f : Nat) (xs : List HVal)
    (cs : List TVal), HeapExt h h' → contentOfL h f xs = some cs →
    contentOfL h' f xs = some cs
  | h, h', 0, xs, cs, _, hc => by simp [contentOfL] at hc
  | h, h', f + 1, [], cs, _, hc => hc
  | h, h', f + 1, x :: xs, cs, hx, hc => by
    simp only [contentOfL] at hc ⊢
    cases hv : contentOfV h f x with
    | none => simp [hv] at hc
    | some v =>
      simp only [hv] at hc
      cases hl : contentOfL h f xs with
      | none => simp [hl] at hc
      | some vs =>
        simp only [hl] at hc
        rw [contentOfV_ext h h' f x v hx hv, contentOfL_ext h h' f xs vs hx hl]
        exact hc

theorem contentOfM_ext : ∀ (h h' : List (Nat × GObj)) (f : Nat)
    (m : List (String × HVal)) (cs : List (String × TVal)), HeapExt h h' →
    contentOfM h f m = some cs → contentOfM h' f m = some cs
  | h, h', 0, m, cs, _, hc => by simp [contentOfM] at hc
  | h, h', f + 1, [], cs, _, hc => hc
  | h, h', f + 1, (k, v) :: rest, cs, hx, hc => by
    simp only [contentOfM] at hc ⊢
    cases hv : contentOfV h f v with
    | none => simp [hv] at hc
    | some w =>
      simp only [hv] at hc
      cases hm : contentOfM h f rest with
      | none => simp [hm] at hc
      | some ws =>
        simp only [hm] at hc
        rw [contentOfV_ext h h' f v w hx hv, contentOfM_ext h h' f rest ws hx hm]
        exact hc
end

theorem stOk_alloc {st : DecState} (hok : stOk st = true) (o : GObj) (key : String) :
    stOk { heap := (st.nextRef, o) :: st.heap, nextRef := st.nextRef + 1,
           registry := (key, st.nextRef) :: eraseA key st.registry } = true := by
  simp only [stOk, List.all_eq_true] at hok ⊢
  intro ro hmem
  rcases List.mem_cons.mp hmem with rfl | hmem'
  · simp
  · have := hok ro hmem'
    simp at this ⊢
    omega

theorem alloc_pres {st : DecState} {t : TypeTag} {fs' : List (String × HVal)}
    {key k0 : String} {y : Nat} (hok : stOk st = true) (hg : GoodAt k0 y st)
    (hne : key ≠ k0) :
    stOk (alloc st t fs' key).2 = true ∧ GoodAt k0 y (alloc st t fs' key).2 ∧
      HeapExt st.heap (alloc st t fs' key).2.heap := by
  refine ⟨stOk_alloc hok _ _, ⟨?_, ?_⟩, heapExt_alloc hok _⟩
  · show lookupA k0 ((key, st.nextRef) :: eraseA key st.registry) = some y
    have h1 : ¬(key = k0) := hne
    rw [lookupA, if_neg h1, lookupA_eraseA_ne (fun h => hne h.symm)]
    exact hg.1
  · show (lookupA y ((st.nextRef, ⟨t, fs'⟩) :: st.heap)).isSome = true
    obtain ⟨o, ho⟩ := Option.isSome_iff_exists.mp hg.2
    rw [heapExt_alloc hok ⟨t, fs'⟩ y o ho]
    rfl

theorem registerCandidate_pres {st : DecState} {t : TypeTag}
    {fs' : List (String × HVal)} {key k0 : String} {y : Nat}
    (hok : stOk st = true) (hg : GoodAt k0 y st) :
    stOk (registerCandidate st t fs' key).2 = true ∧
      GoodAt k0 y (registerCandidate st t fs' key).2 ∧
      HeapExt st.heap (registerCandidate st t fs' key).2.heap := by
  unfold registerCandidate
  cases hlk : lookupA key st.registry with
  | some z =>
    by_cases hlive : (lookupA z st.heap).isSome = true
    · simp only [hlive, if_true]
      exact ⟨hok, hg, heapExt_refl _⟩
    · have hne : key ≠ k0 := by
        intro h
        subst h
        rw [hg.1] at hlk
        injection hlk with hz
        exact hlive (hz ▸ hg.2)
      simp only [hlive, if_false, Bool.false_eq_true]
      exact alloc_pres hok hg hne
  | none =>
    have hne : key ≠ k0 := by
      intro h
      subst h
      rw [hg.1] at hlk
      exact Option.noConfusion hlk
    exact alloc_pres hok hg hne

mutual
theorem decDeepV_pres : ∀ (reg : List TypeTag) (st : DecState) (p : Plain) (w : HVal)
    (st' : DecState) (k0 : String) (y : Nat), decDeepV reg st p = some (w, st') →
    stOk st = true → GoodAt k0 y st →
    stOk st' = true ∧ GoodAt k0 y st' ∧ HeapExt st.heap st'.heap
  | reg, st, .prim p, w, st', k0, y, hd, hok, hg => by
    simp only [decDeepV, Option.some.injEq, Prod.mk.injEq] at hd
    obtain ⟨-, h2⟩ := hd
    subst h2
    exact ⟨hok, hg, heapExt_refl _⟩
  | reg, st, .tagged t fs, w, st', k0, y, hd, hok, hg => by
    simp only [decDeepV] at hd
    by_cases ht : t ∈ reg
    · simp only [ht, if_true] at hd
      cases hdm : decDeepM reg st fs with
      | none => simp [hdm] at hd
      | some rs =>
        obtain ⟨fs', st1⟩ := rs
        simp only [hdm, Option.some.injEq, Prod.mk.injEq] at hd
        obtain ⟨-, h2⟩ := hd
        obtain ⟨hok1, hg1, hx1⟩ := decDeepM_pres reg st fs fs' st1 k0 y hdm hok hg
        obtain ⟨hok2, hg2, hx2⟩ :=
          @registerCandidate_pres st1 t fs' (deriveKeyPlain t fs) k0 y hok1 hg1
        rw [h2] at hok2 hg2 hx2
        exact ⟨hok2, hg2, heapExt_trans hx1 hx2⟩
    · simp [ht] at hd
  | reg, st, .seq xs, w, st', k0, y, hd, hok, hg => by
    simp only [decDeepV] at hd
    cases hdl : decDeepL reg st xs with
    | none => simp [hdl] at hd
    | some rs =>
      obtain ⟨vs, st''⟩ := rs
      simp only [hdl, Option.map_some', Option.some.injEq, Prod.mk.injEq] at hd
      obtain ⟨-, h2⟩ := hd
      subst h2
      exact decDeepL_pres reg st xs vs st'' k0 y hdl hok hg
  | reg, st, .map m, w, st', k0, y, hd, hok, hg => by
    simp only [decDeepV] at hd
    cases hdm : decDeepM reg st m with
    | none => simp [hdm] at hd
    | some rs =>
      obtain ⟨ws, st''⟩ := rs
      simp only [hdm, Option.map_some', Option.some.injEq, Prod.mk.injEq] at hd
      obtain ⟨-, h2⟩ := hd
      subst h2
      exact decDeepM_pres reg st m ws st'' k0 y hdm hok hg
  | reg, st, .keyref k, w, st', k0, y, hd, hok, hg => by
    simp [decDeepV] at hd
termination_by reg st p w st' k0 y hd hok hg => (sizeOf p, 0)

theorem decDeepL_pres : ∀ (reg : List TypeTag) (st : DecState) (xs : List Plain)
    (vs : List HVal) (st' : DecState) (k0 : String) (y : Nat),
    decDeepL reg st xs = some (vs, st') → stOk st = true → GoodAt k0 y st →
    stOk st' = true ∧ GoodAt k0 y st' ∧ HeapExt st.heap st'.heap
  | reg, st, [], vs, st', k0, y, hd, hok, hg => by
    simp only [decDeepL, Option.some.injEq, Prod.mk.injEq] at hd
    obtain ⟨-, h2⟩ := hd
    subst h2
    exact ⟨hok, hg, heapExt_refl _⟩
  | reg, st, x :: xs, vs, st', k0, y, hd, hok, hg => by
    simp only [decDeepL] at hd
    cases hdv : decDeepV reg st x with
    | none => simp [hdv] at hd
    | some rs1 =>
      obtain ⟨v, st1⟩ := rs1
      simp only [hdv] at hd
      cases hdl : decDeepL reg st1 xs with
      | none => simp [hdl] at hd
      | some rs2 =>
        obtain ⟨ws, st2⟩ := rs2
        simp only [hdl, Option.some.injEq, Prod.mk.injEq] at hd
        obtain ⟨-, h2⟩ := hd
        subst h2
        obtain ⟨hok1, hg1, hx1⟩ := decDeepV_pres reg st x v st1 k0 y hdv hok hg
        obtain ⟨hok2, hg2, hx2⟩ := decDeepL_pres reg st1 xs ws st2 k0 y hdl hok1 hg1
        exact ⟨hok2, hg2, heapExt_trans hx1 hx2⟩
termination_by reg st xs vs st' k0 y hd hok hg => (sizeOf xs, 0)

theorem decDeepM_pres : ∀ (reg : List TypeTag) (st : DecState)
    (m : List (String × Plain)) (ws : List (String × HVal)) (st' : DecState)
    (k0 : String) (y : Nat),
    decDeepM reg st m = some (ws, st') → stOk st = true → GoodAt k0 y st →
    stOk st' = true ∧ GoodAt k0 y st' ∧ HeapExt st.heap st'.heap
  | reg, st, [], ws, st', k0, y, hd, hok, hg => by
    simp only [decDeepM, Option.some.injEq, Prod.mk.injEq] at hd
    obtain ⟨-, h2⟩ := hd
    subst h2
    exact ⟨hok, hg, heapExt_refl _⟩
  | reg, st, (k, v) :: rest, ws, st', k0, y, hd, hok, hg => by
    simp only [decDeepM] at hd
    cases hdv : decDeepV reg st v with
    | none => simp [hdv] at hd
    | some rs1 =>
      obtain ⟨w, st1⟩ := rs1
      simp only [hdv] at hd
      cases hdm : decDeepM reg st1 rest with
      | none => simp [hdm] at hd
      | some rs2 =>
        obtain ⟨ws2, st2⟩ := rs2
        simp only [hdm, Option.some.injEq, Prod.mk.injEq] at hd
        obtain ⟨-, h2⟩ := hd
        subst h2
        obtain ⟨hok1, hg1, hx1⟩ := decDeepV_pres reg st v w st1 k0 y hdv hok hg
        obtain ⟨hok2, hg2, hx2⟩ := decDeepM_pres reg st1 rest ws2 st2 k0 y hdm hok1 hg1
        exact ⟨hok2, hg2, heapExt_trans hx1 hx2⟩
termination_by reg st m ws st' k0 y hd hok hg => (sizeOf m, 0)
end

mutual
theorem canonPP_toDeepV : ∀ v : TVal, canonPP (toDeepV v) = canonV v
  | .prim p => rfl
  | .tok t fs => by
    simp only [toDeepV, canonPP, canonV, canonPM_toDeepM fs]
  | .seq xs => by
    simp only [toDeepV, canonPP, canonV, canonPL_toDeepL xs]
  | .map m => by
    simp only [toDeepV, canonPP, canonV, canonPM_toDeepM m]

theorem canonPL_toDeepL : ∀ xs : List TVal, canonPL (toDeepL xs) = canonL xs
  | [] => rfl
  | x :: xs => by
    simp only [toDeepL, canonPL, canonL, canonPP_toDeepV x, canonPL_toDeepL xs]

theorem canonPM_toDeepM : ∀ m : List (String × TVal), canonPM (toDeepM m) = canonM m
  | [] => rfl
  | (k, v) :: rest => by
    simp only [toDeepM, canonPM, canonM, canonPP_toDeepV v, canonPM_toDeepM rest]
end

theorem contentOfV_ref_isSome {h : List (Nat × GObj)} {f : Nat} {r : Nat} {c : TVal}
    (hc : contentOfV h f (.ref r) = some c) : (lookupA r h).isSome = true := by
  cases f with
  | zero => simp [contentOfV] at hc
  | succ f =>
    simp only [contentOfV] at hc
    cases hlk : lookupA r h with
    | none => simp [hlk] at hc
    | some o => rfl

mutual
theorem decKeyedV_markers : ∀ (st : DecState) (fuel : Nat) (v : TVal),
    heapResV st fuel v = true →
    ∃ w, decKeyedV st (toKeyedV v) = some (w, st) ∧
      contentOfV st.heap (fuel + depthV v) w = some v
  | st, fuel, .prim p, _ => by
    refine ⟨.prim p, rfl, ?_⟩
    simp only [depthV]
    rfl
  | st, fuel, .tok t fs, hres => by
    simp only [heapResV] at hres
    cases hlk : lookupA (deriveKeyTok t fs) st.registry with
    | none => simp [hlk] at hres
    | some r0 =>
      simp only [hlk] at hres
      cases hcv : contentOfV st.heap fuel (.ref r0) with
      | none => simp [hcv] at hres
      | some c =>
        simp only [hcv] at hres
        have hc : c = .tok t fs := eq_of_beqV hres
        subst hc
        refine ⟨.ref r0, ?_, ?_⟩
        · simp only [toKeyedV, decKeyedV, hlk, contentOfV_ref_isSome hcv, if_true]
        · simp only [depthV]
          exact contentOfV_mono st.heap fuel (fuel + 1) (.ref r0) _ (by omega) hcv
  | st, fuel, .seq xs, hres => by
    simp only [heapResV] at hres
    obtain ⟨ws, hdec, hcont⟩ := decKeyedL_markers st fuel xs hres
    refine ⟨.seq ws, ?_, ?_⟩
    · simp only [toKeyedV, decKeyedV, hdec, Option.map_some']
    · simp only [depthV]
      show contentOfV st.heap (fuel + (depthL xs + 1)) (.seq ws) = some (.seq xs)
      have : fuel + (depthL xs + 1) = (fuel + depthL xs) + 1 := by omega
      rw [this]
      simp only [contentOfV, hcont, Option.map_some']
  | st, fuel, .map m, hres => by
    simp only [heapResV] at hres
    obtain ⟨ws, hdec, hcont⟩ := decKeyedM_markers st fuel m hres
    refine ⟨.map ws, ?_, ?_⟩
    · simp only [toKeyedV, decKeyedV, hdec, Option.map_some']
    · simp only [depthV]
      show contentOfV st.heap (fuel + (depthM m + 1)) (.map ws) = some (.map m)
      have : fuel + (depthM m + 1) = (fuel + depthM m) + 1 := by omega
      rw [this]
      simp only [contentOfV, hcont, Option.map_some']

theorem decKeyedL_markers : ∀ (st : DecState) (fuel : Nat) (xs : List TVal),
    heapResL st fuel xs = true →
    ∃ ws, decKeyedL st (toKeyedL xs) = some (ws, st) ∧
      contentOfL st.heap (fuel + depthL xs) ws = some xs
  | st, fuel, [], _ => by
    refine ⟨[], rfl, ?_⟩
    simp only [depthL]
    rfl
  | st, fuel, x :: xs, hres => by
    simp only [heapResL, Bool.and_eq_true] at hres
    obtain ⟨w, hdw, hcw⟩ := decKeyedV_markers st fuel x hres.1
    obtain ⟨ws, hdws, hcws⟩ := decKeyedL_markers st fuel xs hres.2
    refine ⟨w :: ws, ?_, ?_⟩
    · simp only [toKeyedL, decKeyedL, hdw, hdws]
    · simp only [depthL]
      have he : fuel + (depthV x + depthL xs + 1) =
          (fuel + (depthV x + depthL xs)) + 1 := by omega
      rw [he]
      have hw' := contentOfV_mono st.heap (fuel + depthV x)
        (fuel + (depthV x + depthL xs)) w x (by omega) hcw
      have hws' := contentOfL_mono st.heap (fuel + depthL xs)
        (fuel + (depthV x + depthL xs)) ws xs (by omega) hcws
      simp only [contentOfL, hw', hws']

theorem decKeyedM_markers : ∀ (st : DecState) (fuel : Nat) (m : List (String × TVal)),
    heapResM st fuel m = true →
    ∃ ws, decKeyedM st (toKeyedM m) = some (ws, st) ∧
      contentOfM st.heap (fuel + depthM m) ws = some m
  | st, fuel, [], _ => by
    refine ⟨[], rfl, ?_⟩
    simp only [depthM]
    rfl
  | st, fuel, (k, v) :: rest, hres => by
    simp only [heapResM, Bool.and_eq_true] at hres
    obtain ⟨w, hdw, hcw⟩ := decKeyedV_markers st fuel v hres.1
    obtain ⟨ws, hdws, hcws⟩ := decKeyedM_markers st fuel rest hres.2
    refine ⟨(k, w) :: ws, ?_, ?_⟩
    · simp only [toKeyedM, decKeyedM, hdw, hdws]
    · simp only [depthM]
      have he : fuel + (depthV v + depthM rest + 1) =
          (fuel + (depthV v + depthM rest)) + 1 := by omega
      rw [he]
      have hw' := contentOfV_mono st.heap (fuel + depthV v)
        (fuel + (depthV v + depthM rest)) w v (by omega) hcw
      have hws' := contentOfM_mono st.heap (fuel + depthM rest)
        (fuel + (depthV v + depthM rest)) ws rest (by omega) hcws
      simp only [contentOfM, hw', hws']
end

/-- Claim C1: in deep and keyed decode, if an instance content-equal to the
one being decoded (same derived key) is already live in the dedup registry
when the representation is decoded, the decode returns that already-live
instance itself — the identical heap reference, not merely a content-equal
copy — and the freshly reconstructed candidate is discarded (in keyed mode
the decoder state is returned unchanged).  The middle conjunct ties the key
the deep decoder derives from a representation to the content-derived
key. -/
theorem decode_dedup_identity :
    (∀ (reg : List TypeTag) (st : DecState) (t : TypeTag) (fs : List (String × Plain))
        (y : Nat) (w : HVal) (st' : DecState),
      stOk st = true →
      lookupA (deriveKeyPlain t fs) st.registry = some y →
      (lookupA y st.heap).isSome = true →
      decDeepV reg st (.tagged t fs) = some (w, st') → w = .ref y)
    ∧ (∀ (t : TypeTag) (fs : List (String × TVal)),
      deriveKeyPlain t (toDeepM fs) = deriveKeyTok t fs)
    ∧ (∀ (reg : List TypeTag) (fuel : Nat) (st : DecState) (t : TypeTag)
        (cfs : List (String × TVal)) (y : Nat),
      heapResM st fuel cfs = true →
      lookupA (deriveKeyTok t cfs) st.registry = some y →
      (lookupA y st.heap).isSome = true →
      t ∈ reg →
      decKeyedTok reg (fuel + depthM cfs) st t (toKeyedM cfs) = some (y, st)) := by
  refine ⟨?_, ?_, ?_⟩
  · intro reg st t fs y w st' hok hreg hlive hd
    simp only [decDeepV] at hd
    by_cases ht : t ∈ reg
    · simp only [ht, if_true] at hd
      cases hdm : decDeepM reg st fs with
      | none => simp [hdm] at hd
      | some rs =>
        obtain ⟨fs', st1⟩ := rs
        simp only [hdm, Option.some.injEq, Prod.mk.injEq] at hd
        obtain ⟨hok1, hg1, -⟩ :=
          decDeepM_pres reg st fs fs' st1 (deriveKeyPlain t fs) y hdm hok ⟨hreg, hlive⟩
        have hrc : registerCandidate st1 t fs' (deriveKeyPlain t fs) = (y, st1) := by
          rw [registerCandidate, hg1.1]
          simp only [hg1.2, if_true]
        rw [hrc] at hd
        exact hd.1.symm
    · simp [ht] at hd
  · intro t fs
    simp only [deriveKeyPlain, deriveKeyTok, canonPP, canonV, canonPM_toDeepM fs]
  · intro reg fuel st t cfs y hres hreg hlive ht
    obtain ⟨ws, hdec, hcont⟩ := decKeyedM_markers st fuel cfs hres
    unfold decKeyedTok
    simp only [ht, if_true, hdec, hcont]
    rw [registerCandidate, hreg]
    simp only [hlive, if_true]

/-- Claim C5: the shallow round-trip fromShallow(toShallow(x)) succeeds and
yields an instance content-equal to x (same extracted content), and every
pair of fields of x referencing the identical nested live instance is
reconstructed as a pair of fields referencing one identical instance —
graph sharing is preserved.  (Registered sanely, the top-level dedup either
returns x itself or a fresh copy of its fields.) -/
theorem shallow_roundtrip : ∀ (reg : List TypeTag) (fuel : Nat) (st : DecState)
    (x : Nat) (t : TypeTag) (fs : List (String × HVal)) (cfs : List (String × TVal)),
    stOk st = true →
    toShallowH st x = some (t, fs) →
    contentOfM st.heap fuel fs = some cfs →
    t ∈ reg →
    (lookupA (deriveKeyTok t cfs) st.registry = none ∨
      lookupA (deriveKeyTok t cfs) st.registry = some x) →
    ∃ r' st', fromShallowH reg fuel st t fs = some (r', st') ∧
      contentOfV st'.heap (fuel + 1) (.ref r') = some (.tok t cfs) ∧
      (∀ n1 n2 s, lookupA n1 fs = some (.ref s) → lookupA n2 fs = some (.ref s) →
        ∃ o, lookupA r' st'.heap = some o ∧
          lookupA n1 o.fields = some (.ref s) ∧ lookupA n2 o.fields = some (.ref s)) := by
  intro reg fuel st x t fs cfs hok hsh hc ht hdisj
  unfold toShallowH at hsh
  cases hlx : lookupA x st.heap with
  | none => simp [hlx] at hsh
  | some o =>
    simp only [hlx, Option.some.injEq, Prod.mk.injEq] at hsh
    obtain ⟨hto, hfo⟩ := hsh
    unfold fromShallowH
    simp only [ht, if_true, hc]
    rcases hdisj with hnone | hsome
    · rw [registerCandidate, hnone]
      unfold alloc
      refine ⟨st.nextRef, _, rfl, ?_, ?_⟩
      · show contentOfV ((st.nextRef, ⟨t, fs⟩) :: st.heap) (fuel + 1)
          (.ref st.nextRef) = some (.tok t cfs)
        have hext := heapExt_alloc hok (⟨t, fs⟩ : GObj)
        simp [contentOfV, lookupA, contentOfM_ext st.heap _ fuel fs cfs hext hc]
      · intro n1 n2 s h1 h2
        refine ⟨⟨t, fs⟩, ?_, h1, h2⟩
        show lookupA st.nextRef ((st.nextRef, (⟨t, fs⟩ : GObj)) :: st.heap) = _
        simp [lookupA]
    · rw [registerCandidate, hsome]
      simp only [hlx, Option.isSome_some, if_true]
      refine ⟨x, st, rfl, ?_, ?_⟩
      · simp only [contentOfV, hlx, hfo, hc, Option.map_some', hto]
      · intro n1 n2 s h1 h2
        exact ⟨o, hlx, hfo ▸ h1, hfo ▸ h2⟩

theorem decode_dedup_identity_witness :
    (decDeepV exReg exStDeep (.tagged leafTag exFsP) = some (.ref 7, exStDeep) ∧
      HVal.ref 7 = HVal.ref 7) ∧
    deriveKeyPlain leafTag (toDeepM [("a", TVal.prim (Prim.pstr "foo"))]) =
      deriveKeyTok leafTag [("a", TVal.prim (Prim.pstr "foo"))] ∧
    decKeyedTok exReg (3 + depthM exKeyedFields) exStKeyed contTag
      (toKeyedM exKeyedFields) = some (9, exStKeyed) :=
  ⟨⟨by rfl, decode_dedup_identity.1 exReg exStDeep leafTag exFsP 7 (.ref 7) exStDeep
      (by decide) (by decide) (by decide) (by rfl)⟩,
   decode_dedup_identity.2.1 leafTag [("a", TVal.prim (Prim.pstr "foo"))],
   decode_dedup_identity.2.2 exReg 3 exStKeyed contTag exKeyedFields 9
      (by decide) (by decide) (by decide) (by decide)⟩

theorem shallow_roundtrip_witness :
    (toShallowH exStSh 1 = some (contTag, exShFields) ∧
      contentOfM exStSh.heap 5 exShFields = some exShContent) ∧
    (∃ r' st', fromShallowH exReg 5 exStSh contTag exShFields = some (r', st') ∧
      contentOfV st'.heap (5 + 1) (.ref r') = some (.tok contTag exShContent) ∧
      (∀ n1 n2 s, lookupA n1 exShFields = some (.ref s) →
        lookupA n2 exShFields = some (.ref s) →
        ∃ o, lookupA r' st'.heap = some o ∧
          lookupA n1 o.fields = some (.ref s) ∧ lookupA n2 o.fields = some (.ref s))) :=
  ⟨⟨by rfl, by rfl⟩,
    shallow_roundtrip exReg 5 exStSh 1 contTag exShFields exShContent
      (by decide) (by rfl) (by rfl) (by decide) (Or.inl (by decide))⟩

/-- Claim C10: for every protocol unit and dependency-result list, calling
`execute` with `block = False` raises an error instead of returning a
`ProtocolUnitResult`: the non-blocking branch is a bare ellipsis assigning
no result, so the trailing `return result` raises `UnboundLocalError`, and
the documented run-in-its-own-thread behaviour is unavailable at the public
interface. -/
theorem execute_nonblocking_raises : ∀ (u : ProtocolUnit) (deps : List PUResult),
    u.execute deps false = .error .unboundLocal := by
  intro u deps
  rfl

/-- Claim C4 (code bug): `_ResultContainer._to_path_component` converts a
non-string item with `str(hash(item))` — the session-dependent Python
runtime hash — and not the item's derived (cross-session-stable) gufe key;
the code's own TODO comment says the digest should be used instead.
Evaluated at a concrete failing input: the produced path component is the
stringified runtime hash and differs from the derived key string. -/
theorem toPathComponent_runtime_hash_bug :
    toPathComponent (.obj 12345 "Leaf-f1e2d3") = "12345" ∧
    PathItem.gufeKey (.obj 12345 "Leaf-f1e2d3") = some "Leaf-f1e2d3" ∧
    toPathComponent (.obj 12345 "Leaf-f1e2d3") ≠ "Leaf-f1e2d3" := by
  refine ⟨by decide, rfl, by decide⟩

/-- Claim C9: `container / item` returns the same result as
`container[item]`; two successive accesses whose items map to the same path
component return the identical cached child — the second access rebuilds
nothing and leaves the state unchanged; at the extensions (file) level `/`
still delegates to `[]`, but nothing is cached (the cache is untouched) and
each access opens a fresh stream. -/
theorem container_access_cached :
    (∀ (st : RCState) (item : PathItem), divItem st item = getItem st item)
    ∧ (∀ (st : RCState) (i j : PathItem), toPathComponent i = toPathComponent j →
        getItem (getItem st i).2 j = getItem st i)
    ∧ (∀ (est : ExtState) (f : String), extDivItem est f = extGetItem est f)
    ∧ (∀ (est : ExtState) (f g : String),
        (extGetItem est f).2.cache = est.cache ∧
        (extGetItem est f).1.openId ≠ (extGetItem (extGetItem est f).2 g).1.openId) := by
  refine ⟨fun st item => rfl, ?_, fun est f => rfl, ?_⟩
  · intro st i j hij
    simp only [getItem, loadNextLevel, ← hij]
    cases hlk : lookupA (toPathComponent i) st.cache with
    | some c => simp [hlk]
    | none => simp [hlk, lookupA]
  · intro est f g
    refine ⟨rfl, ?_⟩
    simp only [extGetItem]
    omega

theorem container_access_cached_witness :
    toPathComponent (PathItem.str "abc") = toPathComponent (PathItem.str "abc") ∧
    getItem (getItem ⟨[], 0⟩ (PathItem.str "abc")).2 (PathItem.str "abc") =
      getItem ⟨[], 0⟩ (PathItem.str "abc") :=
  ⟨rfl, container_access_cached.2.1 ⟨[], 0⟩ (PathItem.str "abc") (PathItem.str "abc") rfl⟩

/-- Claim C7: for every pair present in the remapping table, resolution
substitutes the mapped target pair first and then resolves it, so resolving
the old pair yields exactly the same result as resolving its mapped target
directly (with no remapping table). -/
theorem remapped_pair_resolves_to_target : ∀ (w : PyWorld) (m q m' q' : String)
    (remappings : List ((String × String) × (String × String))),
    lookupA (m, q) remappings = some (m', q') →
    importQualname w (some m) (some q) remappings =
      importQualname w (some m') (some q') [] := by
  intro w m q m' q' remap h
  simp only [importQualname, h, lookupA]

theorem remapped_pair_resolves_to_target_witness :
    lookupA ("foo", "Bar.Baz") exRemap = some ("gufe.tests.test_base", "Outer.Inner") ∧
    importQualname exWorld (some "foo") (some "Bar.Baz") exRemap =
      importQualname exWorld (some "gufe.tests.test_base") (some "Outer.Inner") [] :=
  ⟨by decide,
   remapped_pair_resolves_to_target exWorld "foo" "Bar.Baz"
     "gufe.tests.test_base" "Outer.Inner" exRemap (by decide)⟩

/-- Claim C8: whenever the module path or the qualified name is absent (the
spec's absent/empty reference, Python `None`), resolution fails with the
invalid-reference error raised to the caller — never a crash of another
kind and never a silently returned null. -/
theorem absent_reference_invalid : ∀ (w : PyWorld) (mq qq : Option String)
    (remappings : List ((String × String) × (String × String))),
    mq = none ∨ qq = none →
    importQualname w mq qq remappings = .error .invalidReference := by
  intro w mq qq remap h
  rcases h with rfl | rfl
  · rfl
  · cases mq with
    | none => rfl
    | some m => rfl

theorem absent_reference_invalid_witness :
    importQualname exWorld none (some "Outer.Inner") [] =
      .error .invalidReference ∧
    importQualname exWorld (some "gufe.tests.test_base") none [] =
      .error .invalidReference :=
  ⟨absent_reference_invalid exWorld none (some "Outer.Inner") [] (Or.inl rfl),
   absent_reference_invalid exWorld (some "gufe.tests.test_base") none [] (Or.inr rfl)⟩

end Gufe
